import Mathlib

/-!
Verification of the UTXO wallet (`src/wallet.js`).

The wallet owns a JS array `coins` (a coin is `{ output, txID, outputIndex }`
with `output = { amount, address }`), an `addresses` object mapping an address
string to a `{ public, private }` key pair, and a default key pair `kp`.
`addUTXO` unshifts a new coin onto the front of `coins`; `spendUTXOs` reads and
pops coins from the back of `coins` (`this.coins[this.coins.length - 1]` /
`this.coins.pop()`), i.e. it drains the wallet oldest-first.

JS amounts are numbers; the claims under study only concern control flow,
ordering and additive accounting, so amounts are embedded as `Int`
(non-negativity is a hypothesis where a claim states it).  The wallet is
embedded functionally: every mutating operation returns the post-state
together with an `Except` result; a thrown JS error corresponds to
`Except.error` and, since `wallet.js` throws before mutating, the post-state
in that case is the pre-state unchanged.
-/

namespace BCL

/-- `{ amount, address }`, the unspent transaction output of `wallet.js`. -/
structure UTXO where
  amount : Int
  address : String
deriving DecidableEq, Repr

/-- A coin as stored in `this.coins`: `{ output, txID, outputIndex }`. -/
structure Coin where
  output : UTXO
  txID : String
  outputIndex : Nat
deriving DecidableEq, Repr

/-- A `{ public, private }` key pair (the JS field `private` is `priv` here,
`private` being a Lean keyword). -/
structure KeyPair where
  public : String
  priv : String
deriving DecidableEq, Repr

/-- Modelled from the spec: `utils.sign(privateKey, message)` lives in
`utils.js`, which is not under `src/`; the spec treats signing as an external
primitive.  It is embedded as the abstract pairing of the private key with the
signed message. -/
structure Signature where
  signedWith : String
  message : UTXO
deriving DecidableEq, Repr

/-- Modelled from the spec: the external signing primitive. -/
def sign (priv : String) (output : UTXO) : Signature :=
  ⟨priv, output⟩

/-- An input pushed by `spendUTXOs`:
`{ txID, outputIndex, pubKey, sig }`. -/
structure Input where
  txID : String
  outputIndex : Nat
  pubKey : String
  sig : Signature
deriving DecidableEq, Repr

/-- The return value of `spendUTXOs`: `{ inputs, changeAmt }`. -/
structure SpendResult where
  inputs : List Input
  changeAmt : Int
deriving DecidableEq, Repr

/-- The wallet state.  `coins` is the JS array with the newest coin at the
head (`unshift` inserts at index 0); `addresses` is the JS object embedded as
an association list (later assignments shadow earlier ones, as in
`List.lookup`); `kp` is the default key pair made in the constructor. -/
structure Wallet where
  coins : List Coin
  addresses : List (String × KeyPair)
  kp : KeyPair
deriving DecidableEq, Repr

/-- The constructor: empty coin array, empty address map, one default key
pair.  `utils.generateKeypair()` is external, so the fresh pair is a
parameter. -/
def Wallet.new (kp : KeyPair) : Wallet :=
  ⟨[], [], kp⟩

/-- `get balance()`: `this.coins.reduce((acc, { output }) => acc + output.amount, 0)`. -/
def Wallet.balance (w : Wallet) : Int :=
  w.coins.foldl (fun acc c => acc + c.output.amount) 0

/-- `hasKey(address)`: `!!this.addresses[address]` (key-pair objects are
always truthy, so truthiness is presence in the map). -/
def Wallet.hasKey (w : Wallet) (address : String) : Bool :=
  (w.addresses.lookup address).isSome

/-- `addUTXO(utxo, txID, outputIndex)`: throw `UnknownAddress` when
`this.addresses[utxo.address] === undefined`, otherwise unshift the coin. -/
def Wallet.addUTXO (w : Wallet) (utxo : UTXO) (txID : String) (outputIndex : Nat) :
    Wallet × Except String Unit :=
  if (w.addresses.lookup utxo.address) = none then
    (w, Except.error ("Wallet does not have key for " ++ utxo.address))
  else
    ({ w with coins := ⟨utxo, txID, outputIndex⟩ :: w.coins }, Except.ok ())

/-- The input object pushed for a consumed coin:
`{ txID, outputIndex, pubKey: addresses[addr].public, sig: sign(addresses[addr].private, output) }`.
When the coin's address is missing from the map the JS code would crash on
`undefined.public`; the invariant of §3 rules that out, and the embedding
totalises it with a dummy key pair. -/
def mkInput (addresses : List (String × KeyPair)) (c : Coin) : Input :=
  let kp := (addresses.lookup c.output.address).getD ⟨"", ""⟩
  ⟨c.txID, c.outputIndex, kp.public, sign kp.priv c.output⟩

/-- The `while` loop of `spendUTXOs`, phrased on the coin list in
oldest-first order (the JS loop reads and pops `this.coins[length - 1]`, so
it walks `this.coins` from the back; the caller passes `coins.reverse` and
reverses the survivors back).  State: `collectAmount`, `changeAmount`,
`inputs`, exactly as in the JS body.  The `collectAmount += amount`
assignments in the two `break` branches are dead (the loop exits and
`collectAmount` is not returned), so they are not threaded further. -/
def spendLoop (addresses : List (String × KeyPair)) (amount : Int)
    (collectAmount changeAmount : Int) (inputs : List Input) :
    List Coin → List Coin × List Input × Int
  | [] => ([], inputs, changeAmount)
  | c :: rest =>
    if collectAmount < amount then
      if c.output.amount > amount then
        (rest, inputs ++ [mkInput addresses c], changeAmount + (c.output.amount - amount))
      else if c.output.amount = amount then
        (rest, inputs ++ [mkInput addresses c], changeAmount)
      else
        spendLoop addresses amount (collectAmount + c.output.amount) changeAmount
          (inputs ++ [mkInput addresses c]) rest
    else (c :: rest, inputs, changeAmount)

/-- `spendUTXOs(amount)`: throw `InsufficientFunds` when
`amount > this.balance` (before any mutation), otherwise run the selection
loop and return `{ inputs, changeAmt }` next to the post-state. -/
def Wallet.spendUTXOs (w : Wallet) (amount : Int) :
    Wallet × Except String SpendResult :=
  if amount > w.balance then
    (w, Except.error ("Insufficient funds.  Requested " ++ toString amount ++
      ", but only " ++ toString w.balance ++ " is available."))
  else
    let r := spendLoop w.addresses amount 0 0 [] w.coins.reverse
    ({ w with coins := r.1.reverse }, Except.ok ⟨r.2.1, r.2.2⟩)

/-- `makeAddress()`: mint a key pair, derive its address, store the mapping,
return the address.  `keypair()` (npm package) and `utils.calcAddress` are
external, so the fresh pair and the hash-of-public-key function are
parameters. -/
def Wallet.makeAddress (calcAddress : String → String) (w : Wallet) (kp : KeyPair) :
    Wallet × String :=
  let addr := calcAddress kp.public
  ({ w with addresses := (addr, kp) :: w.addresses }, addr)

/-- A sequence of `addUTXO` calls, each continuing from the previous
post-state (a failed call leaves the state unchanged). -/
def ingestList (w : Wallet) : List (UTXO × String × Nat) → Wallet
  | [] => w
  | (u, t, i) :: rest => ingestList (w.addUTXO u t i).1 rest

/-- One wallet operation, for statements quantifying over arbitrary call
sequences. -/
inductive WalletOp where
  | add (utxo : UTXO) (txID : String) (outputIndex : Nat)
  | spend (amount : Int)
  | make (kp : KeyPair)
deriving DecidableEq, Repr

/-- Run a sequence of operations, threading the wallet state. -/
def runOps (calcAddress : String → String) (w : Wallet) : List WalletOp → Wallet
  | [] => w
  | WalletOp.add u t i :: rest => runOps calcAddress (w.addUTXO u t i).1 rest
  | WalletOp.spend a :: rest => runOps calcAddress (w.spendUTXOs a).1 rest
  | WalletOp.make kp :: rest => runOps calcAddress (w.makeAddress calcAddress kp).1 rest

/-- The addresses returned by the `make` operations of a sequence, in order. -/
def mintedAddresses (calcAddress : String → String) : List WalletOp → List String
  | [] => []
  | WalletOp.make kp :: rest => calcAddress kp.public :: mintedAddresses calcAddress rest
  | WalletOp.add _ _ _ :: rest => mintedAddresses calcAddress rest
  | WalletOp.spend _ :: rest => mintedAddresses calcAddress rest

/-- Total amount held in a list of coins. -/
def coinsSum (l : List Coin) : Int :=
  (l.map (fun c => c.output.amount)).sum

/-- The §3 invariant: every held coin's address is registered in the
AddressBook. -/
def WF (w : Wallet) : Prop :=
  ∀ c ∈ w.coins, w.hasKey c.output.address = true

/-- The coin built by a successful `addUTXO(u, t, i)`. -/
def coinOf (e : UTXO × String × Nat) : Coin :=
  ⟨e.1, e.2.1, e.2.2⟩

/-! ### Concrete wallets used by witnesses and counterexamples -/

def kpA : KeyPair := ⟨"pubA", "privA"⟩

def kpB : KeyPair := ⟨"pubB", "privB"⟩

def book0 : List (String × KeyPair) := [("addrA", kpA), ("addrB", kpB)]

def c10a : Coin := ⟨⟨10, "addrA"⟩, "t1", 0⟩

def c10b : Coin := ⟨⟨10, "addrA"⟩, "t2", 1⟩

def c100 : Coin := ⟨⟨100, "addrB"⟩, "t3", 0⟩

/-- A wallet that ingested a coin of 10 (`c10a`, oldest), then 10 (`c10b`),
then 100 (`c100`, newest): `unshift` leaves the newest at the head. -/
def wEx : Wallet := ⟨[c100, c10b, c10a], book0, kpA⟩

/-- The post-state of `wEx.spendUTXOs 15`. -/
def wEx15 : Wallet := ⟨[c100], book0, kpA⟩

/-- The result of `wEx.spendUTXOs 15`. -/
def res15 : SpendResult := ⟨[mkInput book0 c10a, mkInput book0 c10b], 0⟩

def cS100 : Coin := ⟨⟨100, "addrA"⟩, "t9", 0⟩

/-- A wallet holding the single coin `cS100` of amount 100. -/
def wSingle : Wallet := ⟨[cS100], book0, kpA⟩

def cS5 : Coin := ⟨⟨5, "addrA"⟩, "t8", 2⟩

/-- A wallet holding the single coin `cS5` of amount 5. -/
def wSingle5 : Wallet := ⟨[cS5], book0, kpA⟩

/-- A coinless wallet whose book already has two addresses. -/
def wEmpty : Wallet := ⟨[], book0, kpA⟩

/-- The ingestion sequence that produces `wEx` from `wEmpty`. -/
def l3 : List (UTXO × String × Nat) :=
  [(⟨10, "addrA"⟩, "t1", 0), (⟨10, "addrA"⟩, "t2", 1), (⟨100, "addrB"⟩, "t3", 0)]

/-! ### Helper lemmas -/

lemma coinsSum_nil : coinsSum [] = 0 := rfl

lemma coinsSum_cons (c : Coin) (l : List Coin) :
    coinsSum (c :: l) = c.output.amount + coinsSum l := by
  simp [coinsSum]

lemma coinsSum_append (l₁ l₂ : List Coin) :
    coinsSum (l₁ ++ l₂) = coinsSum l₁ + coinsSum l₂ := by
  simp [coinsSum]

lemma coinsSum_reverse (l : List Coin) : coinsSum l.reverse = coinsSum l := by
  simp [coinsSum, List.sum_reverse]

lemma coinsSum_take_drop (k : Nat) (l : List Coin) :
    coinsSum (l.take k) + coinsSum (l.drop k) = coinsSum l := by
  rw [← coinsSum_append, List.take_append_drop]

lemma coinsSum_nonneg (l : List Coin) (h : ∀ c ∈ l, 0 ≤ c.output.amount) :
    0 ≤ coinsSum l := by
  induction l with
  | nil => simp [coinsSum_nil]
  | cons c rest ih =>
    rw [coinsSum_cons]
    have h1 := h c (by simp)
    have h2 := ih (fun x hx => h x (by simp [hx]))
    omega

lemma foldl_add_amount (l : List Coin) :
    ∀ init : Int, l.foldl (fun acc c => acc + c.output.amount) init = init + coinsSum l := by
  induction l with
  | nil => intro init; simp [coinsSum_nil]
  | cons c rest ih =>
    intro init
    rw [List.foldl_cons, ih (init + c.output.amount), coinsSum_cons]
    ring

/-- `balance` is the total amount held. -/
lemma balance_eq_coinsSum (w : Wallet) : w.balance = coinsSum w.coins := by
  rw [Wallet.balance, foldl_add_amount]
  ring

lemma hasKey_eq_of_addresses {w₁ w₂ : Wallet} (h : w₁.addresses = w₂.addresses)
    (a : String) : w₁.hasKey a = w₂.hasKey a := by
  simp [Wallet.hasKey, h]

lemma addUTXO_fst_addresses (w : Wallet) (u : UTXO) (t : String) (i : Nat) :
    (w.addUTXO u t i).1.addresses = w.addresses := by
  rw [Wallet.addUTXO]
  split <;> rfl

lemma addUTXO_fst_kp (w : Wallet) (u : UTXO) (t : String) (i : Nat) :
    (w.addUTXO u t i).1.kp = w.kp := by
  rw [Wallet.addUTXO]
  split <;> rfl

lemma addUTXO_ok (w : Wallet) (u : UTXO) (t : String) (i : Nat)
    (h : w.hasKey u.address = true) :
    w.addUTXO u t i = ({ w with coins := coinOf (u, t, i) :: w.coins }, Except.ok ()) := by
  have hn : ¬ w.addresses.lookup u.address = none := by
    intro hc
    rw [Wallet.hasKey, hc] at h
    simp at h
  simp [Wallet.addUTXO, hn, coinOf]

lemma spendUTXOs_fst_addresses (w : Wallet) (amt : Int) :
    (w.spendUTXOs amt).1.addresses = w.addresses := by
  rw [Wallet.spendUTXOs]
  split <;> rfl

lemma spendUTXOs_fst_kp (w : Wallet) (amt : Int) :
    (w.spendUTXOs amt).1.kp = w.kp := by
  rw [Wallet.spendUTXOs]
  split <;> rfl

/-- The selection loop consumes a prefix of the (oldest-first) coin list and
appends exactly one input, in order, for each consumed coin. -/
lemma spendLoop_shape (book : List (String × KeyPair)) (amt : Int) :
    ∀ (coins : List Coin) (collect chg : Int) (ins : List Input),
      ∃ k chg', k ≤ coins.length ∧
        spendLoop book amt collect chg ins coins =
          (coins.drop k, ins ++ (coins.take k).map (mkInput book), chg') := by
  intro coins
  induction coins with
  | nil =>
    intro collect chg ins
    exact ⟨0, chg, by simp, by simp [spendLoop]⟩
  | cons c rest ih =>
    intro collect chg ins
    by_cases h1 : collect < amt
    · by_cases h2 : c.output.amount > amt
      · exact ⟨1, chg + (c.output.amount - amt), by simp, by simp [spendLoop, h1, h2]⟩
      · by_cases h3 : c.output.amount = amt
        · exact ⟨1, chg, by simp, by simp [spendLoop, h1, h2, h3]⟩
        · obtain ⟨k, chg', hk, heq⟩ :=
            ih (collect + c.output.amount) chg (ins ++ [mkInput book c])
          refine ⟨k + 1, chg', by simpa using Nat.succ_le_succ hk, ?_⟩
          simp only [spendLoop, h1, h2, h3, if_true, if_false, ite_true, ite_false,
            List.drop_succ_cons, List.take_succ_cons, List.map_cons]
          rw [heq]
          simp
    · exact ⟨0, chg, by simp, by simp [spendLoop, h1]⟩

/-- When the loop stops with coins left over, the total amount it consumed
(plus whatever was already collected) meets the target. -/
lemma spendLoop_stop (book : List (String × KeyPair)) (amt : Int) :
    ∀ (coins : List Coin) (collect chg : Int) (ins : List Input),
      (∀ c ∈ coins, 0 ≤ c.output.amount) → 0 ≤ collect →
      (spendLoop book amt collect chg ins coins).1 ≠ [] →
      amt ≤ collect + (coinsSum coins - coinsSum (spendLoop book amt collect chg ins coins).1) := by
  intro coins
  induction coins with
  | nil =>
    intro collect chg ins _ _ hne
    simp [spendLoop] at hne
  | cons c rest ih =>
    intro collect chg ins hpos hc hne
    have hca : 0 ≤ c.output.amount := hpos c (by simp)
    by_cases h1 : collect < amt
    · by_cases h2 : c.output.amount > amt
      · have e : spendLoop book amt collect chg ins (c :: rest) =
            (rest, ins ++ [mkInput book c], chg + (c.output.amount - amt)) := by
          simp [spendLoop, h1, h2]
        rw [e] at hne ⊢
        dsimp only at hne ⊢
        rw [coinsSum_cons]
        omega
      · by_cases h3 : c.output.amount = amt
        · have e : spendLoop book amt collect chg ins (c :: rest) =
              (rest, ins ++ [mkInput book c], chg) := by
            simp [spendLoop, h1, h2, h3]
          rw [e] at hne ⊢
          dsimp only at hne ⊢
          rw [coinsSum_cons]
          omega
        · have e : spendLoop book amt collect chg ins (c :: rest) =
              spendLoop book amt (collect + c.output.amount) chg
                (ins ++ [mkInput book c]) rest := by
            simp [spendLoop, h1, h2, h3]
          rw [e] at hne ⊢
          have := ih (collect + c.output.amount) chg (ins ++ [mkInput book c])
            (fun x hx => hpos x (by simp [hx])) (by omega) hne
          rw [coinsSum_cons]
          omega
    · have e : spendLoop book amt collect chg ins (c :: rest) = (c :: rest, ins, chg) := by
        simp [spendLoop, h1]
      rw [e] at hne ⊢
      dsimp only at hne ⊢
      omega

/-- A successful `spendUTXOs` call: the book and default key pair are
untouched, and the coins consumed are an oldest-first prefix, one returned
input per consumed coin. -/
lemma spendUTXOs_ok (w : Wallet) (amt : Int) (w' : Wallet) (res : SpendResult)
    (h : w.spendUTXOs amt = (w', Except.ok res)) :
    w'.addresses = w.addresses ∧ w'.kp = w.kp ∧
    ∃ k, k ≤ w.coins.length ∧
      w'.coins = (w.coins.reverse.drop k).reverse ∧
      res.inputs = (w.coins.reverse.take k).map (mkInput w.addresses) := by
  by_cases hb : amt > w.balance
  · rw [Wallet.spendUTXOs, if_pos hb] at h
    simp at h
  · obtain ⟨k, chg', hk, heq⟩ := spendLoop_shape w.addresses amt w.coins.reverse 0 0 []
    rw [Wallet.spendUTXOs, if_neg hb] at h
    simp only [heq] at h
    rw [Prod.mk.injEq] at h
    obtain ⟨hw, hr⟩ := h
    rw [Except.ok.injEq] at hr
    subst hw
    subst hr
    exact ⟨rfl, rfl, k, by simpa using hk, rfl, rfl⟩

/-- Registering an extra key pair cannot remove an address from the book. -/
lemma lookup_cons_isSome (a : String) (p : String × KeyPair)
    (l : List (String × KeyPair)) (h : (l.lookup a).isSome = true) :
    ((p :: l).lookup a).isSome = true := by
  obtain ⟨k, v⟩ := p
  cases hp : a == k <;> simp [List.lookup, hp, h]

/-- `ingestList` of everywhere-registered UTXOs: each call succeeds and
unshifts its coin; the book is untouched. -/
lemma ingestList_coins (l : List (UTXO × String × Nat)) :
    ∀ w : Wallet, (∀ e ∈ l, w.hasKey e.1.address = true) →
      (ingestList w l).coins = (l.map coinOf).reverse ++ w.coins ∧
      (ingestList w l).addresses = w.addresses := by
  induction l with
  | nil => intro w _; simp [ingestList]
  | cons e rest ih =>
    intro w hall
    obtain ⟨u, t, i⟩ := e
    have hu : w.hasKey u.address = true := hall (u, t, i) (by simp)
    have hstep := addUTXO_ok w u t i hu
    rw [ingestList, hstep]
    have hrest : ∀ e ∈ rest,
        ({ w with coins := coinOf (u, t, i) :: w.coins } : Wallet).hasKey e.1.address = true := by
      intro e he
      exact (hasKey_eq_of_addresses rfl e.1.address) ▸ hall e (by simp [he])
    obtain ⟨hc, ha⟩ := ih _ hrest
    constructor
    · rw [hc]
      simp
    · rw [ha]

/-- Balance bookkeeping for a run of successful ingestions. -/
lemma ingestList_balance (l : List (UTXO × String × Nat)) :
    ∀ w : Wallet, (∀ e ∈ l, w.hasKey e.1.address = true) →
      (ingestList w l).balance = w.balance + (l.map (fun e => e.1.amount)).sum := by
  intro w hall
  obtain ⟨hc, _⟩ := ingestList_coins l w hall
  rw [balance_eq_coinsSum, hc, coinsSum_append, coinsSum_reverse, balance_eq_coinsSum]
  have hfun : ((fun c : Coin => c.output.amount) ∘ coinOf) =
      (fun e : UTXO × String × Nat => e.1.amount) := rfl
  have : coinsSum (l.map coinOf) = (l.map (fun e => e.1.amount)).sum := by
    rw [coinsSum, List.map_map, hfun]
  rw [this]
  ring

/-- `hasKey` after an operation sequence: an address is present exactly when
it was present before or was minted along the way. -/
lemma hasKey_runOps (calcAddress : String → String) (a : String) :
    ∀ (ops : List WalletOp) (w : Wallet),
      ((runOps calcAddress w ops).hasKey a = true ↔
        (w.hasKey a = true ∨ a ∈ mintedAddresses calcAddress ops)) := by
  intro ops
  induction ops with
  | nil => intro w; simp [runOps, mintedAddresses]
  | cons op rest ih =>
    intro w
    cases op with
    | add u t i =>
      rw [runOps, mintedAddresses]
      rw [ih]
      rw [hasKey_eq_of_addresses (addUTXO_fst_addresses w u t i) a]
    | spend amt =>
      rw [runOps]
      show (runOps calcAddress (w.spendUTXOs amt).1 rest).hasKey a = true ↔
        (w.hasKey a = true ∨ a ∈ mintedAddresses calcAddress (WalletOp.spend amt :: rest))
      rw [mintedAddresses, ih]
      rw [hasKey_eq_of_addresses (spendUTXOs_fst_addresses w amt) a]
    | make kp =>
      rw [runOps, mintedAddresses]
      rw [ih]
      have hmk : ((w.makeAddress calcAddress kp).1).hasKey a =
          (a == calcAddress kp.public || w.hasKey a) := by
        rw [Wallet.makeAddress, Wallet.hasKey, Wallet.hasKey]
        cases hp : a == calcAddress kp.public <;> simp [List.lookup, hp]
      rw [hmk]
      cases hp : a == calcAddress kp.public
      · have hne : a ≠ calcAddress kp.public := by
          intro hc
          rw [hc] at hp
          simp at hp
        simp only [hp, Bool.false_or, List.mem_cons]
        tauto
      · have heq : a = calcAddress kp.public := eq_of_beq hp
        simp only [hp, Bool.true_or, List.mem_cons, eq_self_iff_true]
        tauto

/-! ### Claims -/

/-- C3: for a target strictly above the balance, `spendUTXOs` signals the
`InsufficientFunds` error and performs no mutation: the post-state is the
unchanged pre-state. -/
theorem spendUTXOs_C3 (w : Wallet) (amt : Int) (h : w.balance < amt) :
    w.spendUTXOs amt =
      (w, Except.error ("Insufficient funds.  Requested " ++ toString amt ++
        ", but only " ++ toString w.balance ++ " is available.")) := by
  rw [Wallet.spendUTXOs, if_pos h]

/-- Witness for C3: asking 200 from a wallet holding 120 fails and leaves the
wallet as it was. -/
theorem spendUTXOs_C3_witness :
    wEx.balance < 200 ∧
    wEx.spendUTXOs 200 =
      (wEx, Except.error ("Insufficient funds.  Requested " ++ toString (200 : Int) ++
        ", but only " ++ toString wEx.balance ++ " is available.")) :=
  ⟨by decide, spendUTXOs_C3 wEx 200 (by decide)⟩

/-- C4: ingesting a UTXO whose address is not in the AddressBook signals the
`UnknownAddress` error and performs no mutation: the post-state is the
unchanged pre-state (coins, book and hence balance included). -/
theorem addUTXO_C4 (w : Wallet) (u : UTXO) (t : String) (i : Nat)
    (h : w.hasKey u.address = false) :
    w.addUTXO u t i = (w, Except.error ("Wallet does not have key for " ++ u.address)) := by
  have hn : w.addresses.lookup u.address = none := by
    cases ho : w.addresses.lookup u.address with
    | none => rfl
    | some kp =>
      rw [Wallet.hasKey, ho] at h
      simp at h
  rw [Wallet.addUTXO, if_pos hn]

/-- Witness for C4: an unregistered address is rejected without mutation. -/
theorem addUTXO_C4_witness :
    wEx.hasKey "addrZ" = false ∧
    wEx.addUTXO ⟨7, "addrZ"⟩ "t0" 3 =
      (wEx, Except.error ("Wallet does not have key for " ++ "addrZ")) :=
  ⟨by decide, addUTXO_C4 wEx ⟨7, "addrZ"⟩ "t0" 3 (by decide)⟩

/-- C5: the balance getter is the sum of the held coins' amounts (recomputed
from the current coin list, with no side effect in this functional embedding),
and over any sequence of successful ingestions into a coinless wallet the
final balance is the sum of the ingested amounts. -/
theorem balance_C5 :
    (∀ w : Wallet, w.balance = coinsSum w.coins) ∧
    (∀ (w : Wallet) (l : List (UTXO × String × Nat)),
      w.coins = [] → (∀ e ∈ l, w.hasKey e.1.address = true) →
      (ingestList w l).balance = (l.map (fun e => e.1.amount)).sum) := by
  refine ⟨balance_eq_coinsSum, ?_⟩
  intro w l hc hall
  rw [ingestList_balance l w hall, balance_eq_coinsSum, hc, coinsSum_nil]
  ring

/-- Witness for C5: ingesting 10, 10 and 100 into a coinless wallet gives
balance 120. -/
theorem balance_C5_witness :
    wEmpty.coins = [] ∧
    (ingestList wEmpty l3).balance = (l3.map (fun e => e.1.amount)).sum :=
  ⟨rfl, balance_C5.2 wEmpty l3 rfl (by decide)⟩

/-- C9: spending 0 from a wallet of non-negative coins succeeds, returns no
inputs and change 0, and leaves the wallet untouched (the selection loop's
guard `collectAmount < amount` is false at once). -/
theorem spendUTXOs_C9 (w : Wallet) (h : ∀ c ∈ w.coins, 0 ≤ c.output.amount) :
    w.spendUTXOs 0 = (w, Except.ok ⟨[], 0⟩) := by
  obtain ⟨coins, book, kp⟩ := w
  have hb : ¬ (0 : Int) > (Wallet.mk coins book kp).balance := by
    rw [balance_eq_coinsSum]
    dsimp only
    have := coinsSum_nonneg coins h
    omega
  rw [Wallet.spendUTXOs, if_neg hb]
  cases hc : coins.reverse with
  | nil =>
    have hwc : coins = [] := by simpa using congrArg List.reverse hc
    subst hwc
    rfl
  | cons c rest =>
    dsimp only
    have he : spendLoop book 0 0 0 [] (c :: rest) = (c :: rest, [], 0) := by
      simp [spendLoop]
    rw [he]
    dsimp only
    rw [← hc, List.reverse_reverse]

/-- Witness for C9: spending 0 from the three-coin wallet is a no-op. -/
theorem spendUTXOs_C9_witness :
    wEx.spendUTXOs 0 = (wEx, Except.ok ⟨[], 0⟩) :=
  spendUTXOs_C9 wEx (by decide)

/-- Counterexample to C1 as stated: the wallet that ingested coins of 10, 10
and 100 (oldest first), asked for 15, stops after consuming the two coins of
10 — the loop terminates although the collection is not exhausted and no coin
of amount ≥ 15 was consumed, because the running collected total (20) reached
the target. -/
theorem spendUTXOs_C1_counterexample :
    wEx.spendUTXOs 15 = (wEx15, Except.ok res15) ∧
    wEx15.coins ≠ [] ∧
    ¬ ∃ c ∈ wEx.coins, c ∉ wEx15.coins ∧ (15 : Int) ≤ c.output.amount := by
  refine ⟨rfl, by decide, by decide⟩

/-- C1 (amended): the less-than branch behaves as specified — the oldest
remaining coin is removed, its input appended, its amount added to the
running collected total, and the loop continues — but the loop terminates
when the total amount consumed reaches or exceeds the original target (the
guard `collectAmount < amount`), when a coin of amount ≥ the target is
consumed, or when the collection is exhausted; so whenever coins remain
after a successful spend, the consumed amount is at least the target. -/
theorem spendUTXOs_C1 :
    (∀ (book : List (String × KeyPair)) (amt collect chg : Int)
        (ins : List Input) (c : Coin) (rest : List Coin),
        collect < amt → c.output.amount < amt →
        spendLoop book amt collect chg ins (c :: rest) =
          spendLoop book amt (collect + c.output.amount) chg
            (ins ++ [mkInput book c]) rest) ∧
    (∀ (w : Wallet) (amt : Int) (w' : Wallet) (res : SpendResult),
        (∀ c ∈ w.coins, 0 ≤ c.output.amount) →
        w.spendUTXOs amt = (w', Except.ok res) →
        w'.coins ≠ [] →
        amt ≤ w.balance - w'.balance) := by
  constructor
  · intro book amt collect chg ins c rest h1 h2
    have h3 : ¬ c.output.amount > amt := by omega
    have h4 : ¬ c.output.amount = amt := by omega
    simp [spendLoop, h1, h3, h4]
  · intro w amt w' res hpos h hne
    by_cases hb : amt > w.balance
    · rw [Wallet.spendUTXOs, if_pos hb] at h
      simp at h
    · rw [Wallet.spendUTXOs, if_neg hb] at h
      dsimp only at h
      rw [Prod.mk.injEq] at h
      obtain ⟨hw, _⟩ := h
      have hwc : w'.coins = (spendLoop w.addresses amt 0 0 [] w.coins.reverse).1.reverse := by
        rw [← hw]
      have hne' : (spendLoop w.addresses amt 0 0 [] w.coins.reverse).1 ≠ [] := by
        intro hz
        rw [hwc, hz] at hne
        exact hne rfl
      have hstop := spendLoop_stop w.addresses amt w.coins.reverse 0 0 []
        (fun c hc => hpos c (by simpa using hc)) le_rfl hne'
      rw [coinsSum_reverse] at hstop
      rw [balance_eq_coinsSum w, balance_eq_coinsSum w', hwc, coinsSum_reverse]
      omega

/-- Witness for C1 (amended): one unfolding of the less-than branch on the
coin of 10, and the consumed-total bound for the spend of 15 from the
three-coin wallet. -/
theorem spendUTXOs_C1_witness :
    (spendLoop book0 15 0 0 [] [c10a, c10b, c100] =
      spendLoop book0 15 (0 + c10a.output.amount) 0
        ([] ++ [mkInput book0 c10a]) [c10b, c100]) ∧
    (15 : Int) ≤ wEx.balance - wEx15.balance :=
  ⟨spendUTXOs_C1.1 book0 15 0 0 [] c10a [c10b, c100] (by decide) (by decide),
   spendUTXOs_C1.2 wEx 15 wEx15 res15 (by decide) rfl (by decide)⟩

/-- Counterexample to C2 as stated: with a single coin of amount 5 and target
0 (the coin's amount ≥ the target and the target does not exceed the
balance), `spendUTXOs` consumes nothing at all — the loop guard
`collectAmount < amount` is false at once — instead of consuming the coin
and returning change 5. -/
theorem spendUTXOs_C2_counterexample :
    wSingle5.coins.reverse = [cS5] ∧
    (0 : Int) ≤ cS5.output.amount ∧
    (0 : Int) ≤ wSingle5.balance ∧
    wSingle5.spendUTXOs 0 = (wSingle5, Except.ok ⟨[], 0⟩) ∧
    (wSingle5.spendUTXOs 0).1.coins ≠ [] := by
  refine ⟨rfl, by decide, by decide, rfl, by decide⟩

/-- C2 (amended): for a *strictly positive* target not exceeding the balance,
if the oldest coin's amount is ≥ the target then `spendUTXOs` consumes
exactly that coin and stops, returning one input and change
`coinAmount - amount` (which is 0 when the amounts are equal). -/
theorem spendUTXOs_C2 (w : Wallet) (amt : Int) (c : Coin) (rest : List Coin)
    (hrev : w.coins.reverse = c :: rest)
    (hamt : 0 < amt) (hbal : amt ≤ w.balance) (hge : amt ≤ c.output.amount) :
    w.spendUTXOs amt =
      ({ w with coins := rest.reverse },
        Except.ok ⟨[mkInput w.addresses c], c.output.amount - amt⟩) := by
  have hb : ¬ amt > w.balance := not_lt.mpr hbal
  rw [Wallet.spendUTXOs, if_neg hb, hrev]
  rcases lt_or_eq_of_le hge with hlt | heq
  · have e : spendLoop w.addresses amt 0 0 [] (c :: rest) =
        (rest, [mkInput w.addresses c], c.output.amount - amt) := by
      simp [spendLoop, hamt, hlt]
    rw [e]
  · have e : spendLoop w.addresses amt 0 0 [] (c :: rest) =
        (rest, [mkInput w.addresses c], 0) := by
      simp [spendLoop, hamt, heq.symm]
    rw [e]
    dsimp only
    rw [← heq, sub_self]

/-- Witness for C2 (amended): the overpayment scenario — one coin of 100,
spend 30: one input, change 70, post-call balance 0. -/
theorem spendUTXOs_C2_witness :
    wSingle.spendUTXOs 30 =
      ({ wSingle with coins := List.reverse [] },
        Except.ok ⟨[mkInput wSingle.addresses cS100], cS100.output.amount - 30⟩) ∧
    (wSingle.spendUTXOs 30).2 = Except.ok ⟨[mkInput book0 cS100], 70⟩ ∧
    (wSingle.spendUTXOs 30).1.balance = 0 :=
  ⟨spendUTXOs_C2 wSingle 30 cS100 [] rfl (by decide) (by decide) (by decide),
   rfl, rfl⟩

/-- C6: coins are drained oldest-first — after any sequence of successful
ingestions into a coinless wallet, a successful spend consumes a prefix of
the coins in insertion order, and the returned inputs list those consumed
coins in that same oldest-first order. -/
theorem wallet_C6 (w0 : Wallet) (l : List (UTXO × String × Nat)) (amt : Int)
    (w' : Wallet) (res : SpendResult)
    (h0 : w0.coins = []) (hall : ∀ e ∈ l, w0.hasKey e.1.address = true)
    (hs : (ingestList w0 l).spendUTXOs amt = (w', Except.ok res)) :
    ∃ k, k ≤ l.length ∧
      res.inputs = ((l.map coinOf).take k).map (mkInput w0.addresses) ∧
      w'.coins.reverse = (l.map coinOf).drop k := by
  obtain ⟨hc, ha⟩ := ingestList_coins l w0 hall
  rw [h0, List.append_nil] at hc
  obtain ⟨_, _, k, hk, hco, hin⟩ := spendUTXOs_ok (ingestList w0 l) amt w' res hs
  refine ⟨k, ?_, ?_, ?_⟩
  · rw [hc] at hk
    simpa using hk
  · rw [hin, ha, hc, List.reverse_reverse]
  · rw [hco, hc]
    simp [List.reverse_reverse]

/-- Witness for C6: ingesting 10, 10, 100 and spending 15 consumes the first
two ingested coins, oldest first. -/
theorem wallet_C6_witness :
    ∃ k, k ≤ l3.length ∧
      res15.inputs = ((l3.map coinOf).take k).map (mkInput wEmpty.addresses) ∧
      wEx15.coins.reverse = (l3.map coinOf).drop k :=
  wallet_C6 wEmpty l3 15 wEx15 res15 rfl (by decide) rfl

/-- C7: the AddressBook invariant — every held coin's address is registered —
holds of a fresh wallet and is preserved by `addUTXO`, `spendUTXOs` and
`makeAddress` (`hasKey` reads no state in this functional embedding, and the
balance getter touches nothing); moreover a coin enters the collection only
when `addUTXO` succeeds, which requires its address to be registered. -/
theorem wallet_C7 :
    (∀ kp : KeyPair, WF (Wallet.new kp)) ∧
    (∀ (w : Wallet) (u : UTXO) (t : String) (i : Nat),
      WF w → WF (w.addUTXO u t i).1) ∧
    (∀ (w : Wallet) (u : UTXO) (t : String) (i : Nat),
      (w.addUTXO u t i).2 = Except.ok () → w.hasKey u.address = true) ∧
    (∀ (w : Wallet) (amt : Int), WF w → WF (w.spendUTXOs amt).1) ∧
    (∀ (calcAddress : String → String) (w : Wallet) (kp : KeyPair),
      WF w → WF (w.makeAddress calcAddress kp).1) := by
  refine ⟨?_, ?_, ?_, ?_, ?_⟩
  · intro kp c hc
    simp [Wallet.new] at hc
  · intro w u t i hwf
    rw [Wallet.addUTXO]
    split
    · exact hwf
    · next hn =>
      intro c hc
      rcases List.mem_cons.mp hc with rfl | hmem
      · exact Option.ne_none_iff_isSome.mp hn
      · exact hwf c hmem
  · intro w u t i h
    rw [Wallet.addUTXO] at h
    split at h
    · simp at h
    · next hn =>
      exact Option.ne_none_iff_isSome.mp hn
  · intro w amt hwf
    by_cases hb : amt > w.balance
    · rw [Wallet.spendUTXOs, if_pos hb]
      exact hwf
    · rw [Wallet.spendUTXOs, if_neg hb]
      obtain ⟨k, chg', hk, heq⟩ := spendLoop_shape w.addresses amt w.coins.reverse 0 0 []
      intro c hc
      dsimp only at hc
      rw [heq] at hc
      dsimp only at hc
      have hmem : c ∈ w.coins := by
        have h1 := List.mem_reverse.mp hc
        have h2 := List.mem_of_mem_drop h1
        exact List.mem_reverse.mp h2
      exact hwf c hmem
  · intro calcAddress w kp hwf c hc
    exact lookup_cons_isSome c.output.address (calcAddress kp.public, kp) w.addresses
      (hwf c hc)

/-- Witness for C7: the invariant survives an ingestion, a spend and a mint
on the three-coin wallet, and the concrete successful ingestion had its key. -/
theorem wallet_C7_witness :
    WF (wEx.addUTXO ⟨7, "addrA"⟩ "t7" 1).1 ∧
    wEx.hasKey (⟨7, "addrA"⟩ : UTXO).address = true ∧
    WF (wEx.spendUTXOs 15).1 ∧
    WF (wEx.makeAddress (fun s => s ++ "h") kpB).1 :=
  ⟨wallet_C7.2.1 wEx ⟨7, "addrA"⟩ "t7" 1 (by unfold WF; decide),
   wallet_C7.2.2.1 wEx ⟨7, "addrA"⟩ "t7" 1 rfl,
   wallet_C7.2.2.2.1 wEx 15 (by unfold WF; decide),
   wallet_C7.2.2.2.2 (fun s => s ++ "h") wEx kpB (by unfold WF; decide)⟩

/-- C8: `hasKey` is true for the address just returned by `makeAddress`,
stays true across any further operations (book entries are never removed),
and is false on a fresh wallet for every address no `make` operation
returned. -/
theorem wallet_C8 :
    (∀ (calcAddress : String → String) (w : Wallet) (kp : KeyPair),
      ((w.makeAddress calcAddress kp).1).hasKey (w.makeAddress calcAddress kp).2 = true) ∧
    (∀ (calcAddress : String → String) (w : Wallet) (a : String) (ops : List WalletOp),
      w.hasKey a = true → (runOps calcAddress w ops).hasKey a = true) ∧
    (∀ (calcAddress : String → String) (kp0 : KeyPair) (ops : List WalletOp) (a : String),
      a ∉ mintedAddresses calcAddress ops →
      (runOps calcAddress (Wallet.new kp0) ops).hasKey a = false) := by
  refine ⟨?_, ?_, ?_⟩
  · intro calcAddress w kp
    rw [Wallet.makeAddress]
    dsimp only
    rw [Wallet.hasKey]
    simp [List.lookup]
  · intro calcAddress w a ops h
    exact (hasKey_runOps calcAddress a ops w).mpr (Or.inl h)
  · intro calcAddress kp0 ops a h
    by_contra hc
    have ht : (runOps calcAddress (Wallet.new kp0) ops).hasKey a = true := by
      cases hx : (runOps calcAddress (Wallet.new kp0) ops).hasKey a
      · exact absurd hx hc
      · rfl
    rcases (hasKey_runOps calcAddress a ops (Wallet.new kp0)).mp ht with h1 | h2
    · have hnew : (Wallet.new kp0).hasKey a = false := rfl
      rw [hnew] at h1
      simp at h1
    · exact h h2

/-- Witness for C8: a fresh mint is immediately visible, survives a spend,
and an address never minted is absent. -/
theorem wallet_C8_witness :
    ((Wallet.new kpA).makeAddress (fun s => s ++ "h") kpB).1.hasKey
      ((Wallet.new kpA).makeAddress (fun s => s ++ "h") kpB).2 = true ∧
    (runOps (fun s => s ++ "h") wEx [WalletOp.spend 15]).hasKey "addrA" = true ∧
    (runOps (fun s => s ++ "h") (Wallet.new kpA) [WalletOp.make kpB]).hasKey "addrZ" = false :=
  ⟨wallet_C8.1 (fun s => s ++ "h") (Wallet.new kpA) kpB,
   wallet_C8.2.1 (fun s => s ++ "h") wEx "addrA" [WalletOp.spend 15] (by decide),
   wallet_C8.2.2 (fun s => s ++ "h") kpA [WalletOp.make kpB] "addrZ" (by decide)⟩

/-- C10: a successful `spendUTXOs` leaves the AddressBook unchanged, removes
exactly the (oldest-first) prefix of coins matched one-to-one by the returned
inputs, and decreases the balance by exactly the sum of the consumed coins'
amounts. -/
theorem spendUTXOs_C10 (w : Wallet) (amt : Int) (w' : Wallet) (res : SpendResult)
    (h : w.spendUTXOs amt = (w', Except.ok res)) :
    w'.addresses = w.addresses ∧
    ∃ k, k ≤ w.coins.length ∧
      res.inputs = (w.coins.reverse.take k).map (mkInput w.addresses) ∧
      w'.coins.reverse = w.coins.reverse.drop k ∧
      w'.balance = w.balance - coinsSum (w.coins.reverse.take k) := by
  obtain ⟨ha, _, k, hk, hco, hin⟩ := spendUTXOs_ok w amt w' res h
  refine ⟨ha, k, hk, hin, ?_, ?_⟩
  · rw [hco, List.reverse_reverse]
  · rw [balance_eq_coinsSum w', balance_eq_coinsSum w, hco, coinsSum_reverse]
    have hsplit := coinsSum_take_drop k w.coins.reverse
    rw [coinsSum_reverse] at hsplit
    omega

/-- Witness for C10: the spend of 15 from the three-coin wallet removes the
two consumed coins and drops the balance from 120 to 100. -/
theorem spendUTXOs_C10_witness :
    wEx15.addresses = wEx.addresses ∧
    ∃ k, k ≤ wEx.coins.length ∧
      res15.inputs = (wEx.coins.reverse.take k).map (mkInput wEx.addresses) ∧
      wEx15.coins.reverse = wEx.coins.reverse.drop k ∧
      wEx15.balance = wEx.balance - coinsSum (wEx.coins.reverse.take k) :=
  spendUTXOs_C10 wEx 15 wEx15 res15 rfl

end BCL
